import Mathlib

/-!
Verification development for the lumen HTTP server (Rust sources under src/).
The Rust code is shallowly embedded: pure string and path manipulation is
translated to functions on List Char and component lists, filesystem access
is abstracted into an explicit oracle record, and the stateful pieces
(thread pool admission, the sharded LRU cache, the theme-environment swap)
are modelled as explicit state-passing functions.  Machine integers (u64,
usize) are modelled as Nat; the only operations the embedded code performs
on them are comparisons, saturating subtraction (which is Nat subtraction)
and additions that are bounds-checked in the source, so no wrap-around
modelling is needed except where noted (u64 parsing rejects values at or
above 2 to the 64).
-/

/- ### Generic character and list helpers (embedding Rust str primitives) -/

/-- Rust char splitting, as in str::split(c): splits at every occurrence of
the character, keeping empty segments; always returns at least one segment. -/
def splitChar (c : Char) : List Char → List (List Char)
  | [] => [[]]
  | x :: xs =>
    let r := splitChar c xs
    if x = c then [] :: r
    else
      match r with
      | [] => [[x]]
      | h :: t => (x :: h) :: t

/-- Rust str::contains(char). -/
def containsChar (c : Char) : List Char → Bool
  | [] => false
  | x :: xs => x = c || containsChar c xs

/-- Rust str::contains(substring): some contiguous segment equals the needle. -/
def containsSeq (hay needle : List Char) : Bool :=
  match hay with
  | [] => needle.isEmpty
  | _ :: t => (if hay.take needle.length = needle then true else false) || containsSeq t needle

/-- Rust char::to_ascii_lowercase. -/
def asciiLowerChar (c : Char) : Char :=
  if 'A' ≤ c ∧ c ≤ 'Z' then Char.ofNat (c.toNat + 32) else c

/-- Rust str::eq_ignore_ascii_case. -/
def eqIgnoreAsciiCase (a b : List Char) : Bool :=
  a.map asciiLowerChar = b.map asciiLowerChar

/-- Rust str::trim (the header slices trimmed in the range parser contain only
ASCII, for which Char.isWhitespace agrees with Rust char::is_whitespace). -/
def trimChars (l : List Char) : List Char :=
  ((l.dropWhile Char.isWhitespace).reverse.dropWhile Char.isWhitespace).reverse

/-- Numeric value of a list of ASCII digits, most significant first. -/
def digitsVal (l : List Char) : Nat :=
  l.foldl (fun acc c => acc * 10 + (c.toNat - 48)) 0

/-- Rust str::parse::<u64>(): optional leading plus sign, then one or more
ASCII digits; overflow past 2^64 - 1 is an error. -/
def parseU64 (l : List Char) : Option Nat :=
  let digits := if l.headD ' ' = '+' then l.tail else l
  if !digits.isEmpty && digits.all Char.isDigit then
    if digitsVal digits < 18446744073709551616 then some (digitsVal digits) else none
  else none

/- ### Path components and secure_join (src/utils.rs lines 7-23) -/

/-- std::path::Component for the purposes of secure_join. -/
inductive PathComp where
  | rootDir
  | curDir
  | parentDir
  | prefixDir
  | normal (s : String)
deriving DecidableEq

/-- Model of std Path::components() for Unix path strings: a leading slash
yields a RootDir component, then the slash-separated nonempty segments,
with "." read as CurDir and ".." as ParentDir.  (std drops interior "."
segments eagerly; secure_join discards CurDir components anyway, so the
difference is unobservable through secure_join.) -/
def parsePathComps (l : List Char) : List PathComp :=
  let isAbs : Bool := match l with | '/' :: _ => true | _ => false
  let segs := (splitChar '/' l).filter (fun s => !s.isEmpty)
  let comps := segs.map (fun s =>
    if s = ['.'] then PathComp.curDir
    else if s = ['.', '.'] then PathComp.parentDir
    else PathComp.normal (String.mk s))
  if isAbs then PathComp.rootDir :: comps else comps

/-- Loop body of secure_join (src/utils.rs lines 9-21): paths are modelled as
their component-name lists; result.push appends, result.pop drops the last
component, and the pop is guarded by result being different from base. -/
def secureJoinAux (base : List String) : List String → List PathComp → Option (List String)
  | result, [] => some result
  | result, PathComp.normal c :: rest => secureJoinAux base (result ++ [c]) rest
  | result, PathComp.parentDir :: rest =>
      if result ≠ base then secureJoinAux base result.dropLast rest else none
  | result, _ :: rest => secureJoinAux base result rest

/-- src/utils.rs secure_join: fold the components of the user path onto a
copy of base. -/
def secure_join (base : List String) (userPath : List Char) : Option (List String) :=
  secureJoinAux base base (parsePathComps userPath)

/- ### Filesystem abstraction and HTTP response model (src/http.rs) -/

/-- Result of File::open followed by metadata(): present only when both
succeed; carries the metadata bits serve_path inspects. -/
structure FileMeta where
  isFile : Bool
  isDirMeta : Bool
  len : Nat
deriving DecidableEq

/-- Filesystem oracle: openMeta is File::open plus metadata(), canon is
Path::canonicalize (none on error), baseDirCanon is the result of
canonicalizing base_dir (none on error, in which case the code falls back
to base_dir itself).  Paths are component-name lists. -/
structure Fs where
  openMeta : List String → Option FileMeta
  canon : List String → Option (List String)
  baseDirCanon : Option (List String)

/-- Responses emitted by serve_path, keeping the data the claims are about:
error status and body for send_error; the markdown path for the rendered
branch (serve_markdown is opaque here); the redirect location before percent
encoding; static file data with status, Content-Length and the optional
Content-Range triple (start, end, total); the 416 response which carries
Content-Range bytes star-slash-total; and the 404 fallback. -/
inductive HttpResponse where
  | error (status : Nat) (body : String)
  | rendered (mdPath : List String)
  | redirect (location : List Char)
  | fileData (status : Nat) (contentLength : Nat) (contentRange : Option (Nat × Nat × Nat))
  | rangeNotSatisfiable (totalLen : Nat)
  | notFound
deriving DecidableEq

/- ### serve_path front end (src/http.rs lines 288-302) -/

/-- src/http.rs lines 291-295: take the part of the decoded path before the
first question mark (split('?').next() always yields the first segment;
the unwrap_or("/") default is unreachable) and replace every backslash with
a slash.  Percent decoding of the raw request path (line 288) happens
upstream of this model: servePath takes the decoded path. -/
def normalizeReqPath (decoded : List Char) : List Char :=
  ((splitChar '?' decoded).headD []).map (fun c => if c = '\\' then '/' else c)

/-- Leading-dot test of the URL filter (starts_with('.')). -/
def headIsDot : List Char → Bool
  | '.' :: _ => true
  | _ => false

/-- src/http.rs line 297: the connection-level URL filter. -/
def urlFilterRejects (n : List Char) : Bool :=
  containsSeq n ['.', '.'] || containsSeq n ['/', '.'] || headIsDot n

/-- Rust str::trim_start_matches('/'): drop all leading slashes. -/
def dropLeadingSlashes : List Char → List Char
  | '/' :: t => dropLeadingSlashes t
  | l => l

/-- src/http.rs line 302: a request is a directory request when the
normalized path ends with a slash or equals the bare slash. -/
def isDirReq (n : List Char) : Bool :=
  n.getLast? = some '/' || n = ['/']

/-- src/http.rs lines 304-308: candidate markdown target. -/
def mdTargetOf (n : List Char) : List Char :=
  if isDirReq n then dropLeadingSlashes n ++ "index.md".data
  else dropLeadingSlashes n ++ ".md".data

/-- src/http.rs lines 347-351: candidate static target. -/
def staticTargetOf (n : List Char) : List Char :=
  if isDirReq n then dropLeadingSlashes n ++ "index.html".data
  else dropLeadingSlashes n

/-- src/http.rs lines 310-314: the markdown branch fires when secure_join
succeeds, the file opens with metadata, and the metadata says regular file. -/
def mdHit (fs : Fs) (base : List String) (mdTarget : List Char) : Option (List String) :=
  match secure_join base mdTarget with
  | some p =>
    match fs.openMeta p with
    | some m => if m.isFile then some p else none
    | none => none
  | none => none

/-- src/http.rs lines 319-324: the redirect branch fires when secure_join on
the bare target succeeds, the target opens, and its metadata says directory. -/
def dirHit (fs : Fs) (base : List String) (target : List Char) : Bool :=
  match secure_join base target with
  | some p =>
    match fs.openMeta p with
    | some m => m.isDirMeta
    | none => false
  | none => false

/- ### Byte-range handling for static files (src/http.rs lines 375-441) -/

/-- Rust str::strip_prefix applied with the literal pattern bytes= . -/
def stripBytesEq (l : List Char) : Option (List Char) :=
  match l with
  | 'b' :: 'y' :: 't' :: 'e' :: 's' :: '=' :: rest => some rest
  | _ => none

/-- src/http.rs lines 379-417: scan the headers for the first one named
range (ASCII-case-insensitively); later headers are never examined because
the loop breaks after the first match. -/
def findRange : List (String × String) → Option String
  | [] => none
  | (nm, v) :: rest =>
      if eqIgnoreAsciiCase nm.data "range".data then some v else findRange rest

/-- src/http.rs lines 375-418: compute (range_start, range_end, is_partial)
for a file of length len.  Defaults are 0, len-1 (saturating) and false;
a first Range header of the form bytes=a-b overrides them as the source
does: comma means multi-range and is ignored; an empty start with a
positive suffix N selects the last N bytes saturating at 0; a parsed start
with empty or unparsable end runs to len-1; a parsed end is clamped to
len-1. -/
def rangeTriple (len : Nat) (headers : List (String × String)) : Nat × Nat × Bool :=
  let dflt := (0, len - 1, false)
  match findRange headers with
  | none => dflt
  | some rv =>
    match stripBytesEq rv.data with
    | none => dflt
    | some stripped =>
      if containsChar ',' stripped then dflt
      else
        match splitChar '-' stripped with
        | [p0, p1] =>
          let startStr := trimChars p0
          let endStr := trimChars p1
          if startStr.isEmpty then
            if endStr.isEmpty then dflt
            else
              match parseU64 endStr with
              | some suffix => if 0 < suffix then (len - suffix, len - 1, true) else dflt
              | none => dflt
          else
            match parseU64 startStr with
            | some s =>
              if endStr.isEmpty then (s, len - 1, true)
              else
                match parseU64 endStr with
                | some e => (s, min e (len - 1), true)
                | none => (s, len - 1, true)
            | none => dflt
        | _ => dflt
    
/-- src/http.rs lines 420-441: emit 416 when a partial range is
unsatisfiable, otherwise 206 (partial) or 200 (full) with the computed
Content-Length and, when partial, the Content-Range triple. -/
def staticFileResponse (headers : List (String × String)) (len : Nat) : HttpResponse :=
  match rangeTriple len headers with
  | (rangeStart, rangeEnd, isPartial) =>
    if isPartial = true ∧ (rangeEnd < rangeStart ∨ len ≤ rangeStart) then
      .rangeNotSatisfiable len
    else
      let contentLength := if len = 0 then 0 else rangeEnd - rangeStart + 1
      let status := if isPartial then 206 else 200
      .fileData status contentLength (if isPartial then some (rangeStart, rangeEnd, len) else none)

/- ### Extension check and the static branch (src/http.rs lines 353-486) -/

/-- std Path::extension on a file name: the part after the last dot, none
when there is no dot or the only dot is the leading character. -/
def extOf (name : List Char) : Option (List Char) :=
  let parts := splitChar '.' name
  if parts.length ≤ 1 then none
  else if headIsDot name && parts.length = 2 then none
  else some (parts.getLastD [])

/-- src/http.rs lines 364-365: the canonical path ends in a file whose
extension equals md ignoring ASCII case. -/
def mdExt (p : List String) : Bool :=
  match p.getLast? with
  | some name =>
    match extOf name.data with
    | some e => eqIgnoreAsciiCase e "md".data
    | none => false
  | none => false

/-- Component-wise Path::starts_with: the second path is a component prefix
of the first. -/
def pathStartsWith : List String → List String → Bool
  | _, [] => true
  | [], _ :: _ => false
  | a :: as, b :: bs => a = b && pathStartsWith as bs

/-- src/http.rs lines 353-486: the static branch.  secure_join then
canonicalize (failure of either skips to the 404 fallback), then the
containment check against the canonicalized base (falling back to base_dir
when its canonicalization fails), then the markdown-extension refusal, then
open and serve with range handling. -/
def staticBranch (fs : Fs) (base : List String) (staticTarget : List Char)
    (headers : List (String × String)) : HttpResponse :=
  match secure_join base staticTarget with
  | some sp =>
    match fs.canon sp with
    | some c =>
      let baseCanon := fs.baseDirCanon.getD base
      if !pathStartsWith c baseCanon then .error 403 "403 Forbidden"
      else if mdExt c then .error 403 "403 Forbidden"
      else
        match fs.openMeta c with
        | some m => if m.isFile then staticFileResponse headers m.len else .notFound
        | none => .notFound
    | none => .notFound
  | none => .notFound

/-- src/http.rs serve_path (lines 281-495) on the percent-decoded request
path: normalize, run the URL filter, then try the markdown branch, the
directory redirect, and finally the static branch; every failure lands on
the 404 fallback inside staticBranch. -/
def servePath (fs : Fs) (base : List String) (decoded : List Char)
    (headers : List (String × String)) : HttpResponse :=
  let n := normalizeReqPath decoded
  if urlFilterRejects n then .error 403 "403 Forbidden"
  else
    match mdHit fs base (mdTargetOf n) with
    | some mdPath => .rendered mdPath
    | none =>
      if !isDirReq n && dirHit fs base (dropLeadingSlashes n) then .redirect (n ++ ['/'])
      else staticBranch fs base (staticTargetOf n) headers

/- ### Connection-level request dispatch (src/server.rs lines 234-267) -/

/-- A parsed request as handle_connection sees it from httparse: optional
method, path and version (the source applies unwrap_or defaults), plus the
headers as name-value pairs (header values are modelled as UTF-8 strings;
a non-UTF-8 value makes the corresponding source check fall through, which
coincides with the model on the strings it can represent). -/
structure ParsedReq where
  method : Option String
  path : Option String
  version : Option Nat
  headers : List (String × String)

/-- src/server.rs lines 249-256: body detection.  A header counts when it is
named content-length (ASCII-case-insensitively) with a trimmed value that is
neither the literal 0 nor empty, or when it is named transfer-encoding. -/
def hasBody (headers : List (String × String)) : Bool :=
  headers.any fun h =>
    if eqIgnoreAsciiCase h.1.data "content-length".data then
      !(trimChars h.2.data = ['0'] : Bool) && !(trimChars h.2.data).isEmpty
    else eqIgnoreAsciiCase h.1.data "transfer-encoding".data

/-- src/server.rs lines 258-267: per-request dispatch.  Any non-GET method or
detected body yields the 405 error with the keep-alive result forced to
false (the caller breaks the connection loop on false, closing the
connection); otherwise serve_path runs and returns the given keep-alive
flag. -/
def handleParsedRequest (fs : Fs) (base : List String) (keepAlive : Bool)
    (req : ParsedReq) : HttpResponse × Bool :=
  if req.method.getD "GET" ≠ "GET" ∨ hasBody req.headers = true then
    (.error 405 "Method Not Allowed", false)
  else
    (servePath fs base (req.path.getD "/").data req.headers, keepAlive)

/- ### Keep-alive decision (src/http.rs lines 497-514) -/

/-- First header named connection, ASCII-case-insensitively. -/
def connectionHeader (headers : List (String × String)) : Option (String × String) :=
  headers.find? (fun h => eqIgnoreAsciiCase h.1.data "connection".data)

/-- src/http.rs is_keep_alive: an exact (ASCII-case-insensitive) keep-alive
value forces true, an exact close forces false, any other present value is
tested for the lowercased substring keep-alive, and an absent header falls
back to the HTTP version being 1.1.  (The source lowercases the substring
test with Unicode to_lowercase; on ASCII values, which is all HTTP grammar
admits, that agrees with the ASCII lowering used here.) -/
def is_keep_alive (req : ParsedReq) : Bool :=
  let isHttp11 := req.version.getD 0 = 1
  match connectionHeader req.headers with
  | some h =>
    if eqIgnoreAsciiCase h.2.data "keep-alive".data then true
    else if eqIgnoreAsciiCase h.2.data "close".data then false
    else containsSeq (h.2.data.map asciiLowerChar) "keep-alive".data
  | none => isHttp11

/- ### Thread pool admission (src/thread_pool.rs lines 119-131) -/

/-- src/thread_pool.rs Parker::notify_one (lines 37-44): increment the token
count and signal only when below max_tokens. -/
def notify_one (maxTokens tokens : Nat) : Nat :=
  if tokens < maxTokens then tokens + 1 else tokens

/-- Pool state visible to execute: the pending counter, the injector queue
(jobs modelled by identifiers), the parker token count, and the two
configured bounds. -/
structure ThreadPoolM where
  pending : Nat
  injector : List Nat
  parkerTokens : Nat
  queue_size : Nat
  maxTokens : Nat
deriving DecidableEq

/-- src/thread_pool.rs ThreadPool::execute: reject with Full carrying the job
when pending has reached queue_size, otherwise increment pending, push the
job on the injector and notify one parked worker.  The second component is
the Full payload (none means Ok). -/
def ThreadPoolM.execute (p : ThreadPoolM) (job : Nat) : ThreadPoolM × Option Nat :=
  if p.queue_size ≤ p.pending then (p, some job)
  else
    ({ p with
        pending := p.pending + 1
        injector := p.injector ++ [job]
        parkerTokens := notify_one p.maxTokens p.parkerTokens }, none)

/- ### Sharded LRU cache (src/state.rs lines 19-65) -/

/-- src/state.rs line 19: the shard count. -/
def SHARDS : Nat := 16

/-- Model of the lru crate cache used per shard: a capacity and the entries
in most-recently-used-first order.  put of an existing key replaces it and
moves it to the front; put of a new key at capacity evicts the least
recently used entry; get moves the hit to the front. -/
structure LruCache (K V : Type) where
  cap : Nat
  entries : List (K × V)
deriving DecidableEq

/-- lru::LruCache::put. -/
def LruCache.put [DecidableEq K] (c : LruCache K V) (k : K) (v : V) : LruCache K V :=
  { c with entries := ((k, v) :: c.entries.filter (fun e => decide (e.1 ≠ k))).take c.cap }

/-- lru::LruCache::get: on a hit, move the entry to the front. -/
def LruCache.get [DecidableEq K] (c : LruCache K V) (k : K) : LruCache K V × Option V :=
  match c.entries.find? (fun e => decide (e.1 = k)) with
  | some e => ({ c with entries := e :: c.entries.filter (fun x => decide (x.1 ≠ k)) }, some e.2)
  | none => (c, none)

/-- The sharded cache: a list of shards (SHARDS of them when built by new). -/
structure ShardedLruCache (K V : Type) where
  shards : List (LruCache K V)
deriving DecidableEq

/-- src/state.rs ShardedLruCache::new: every shard gets capacity
max(1, capacity / SHARDS); the NonZeroUsize::new unwrap succeeds because
that is at least 1. -/
def ShardedLruCache.new {K V : Type} (capacity : Nat) : ShardedLruCache K V :=
  { shards := List.replicate SHARDS { cap := max 1 (capacity / SHARDS), entries := [] } }

/-- In-place update of one list position, used to model locking one shard. -/
def modifyIdx (f : α → α) : Nat → List α → List α
  | _, [] => []
  | 0, x :: xs => f x :: xs
  | n + 1, x :: xs => x :: modifyIdx f n xs

/-- src/state.rs get_shard: the shard index is a hash of the key modulo
SHARDS.  DefaultHasher is std library code, so the hash is a parameter of
the model. -/
def getShard (hash : K → Nat) (k : K) : Nat := hash k % SHARDS

/-- The cache operations reachable states are built from. -/
inductive CacheOp (K V : Type) where
  | put (k : K) (v : V)
  | get (k : K)
  | clear

/-- src/state.rs lines 44-64: put and get act on the shard selected by the
hash; clear empties every shard. -/
def ShardedLruCache.applyOp [DecidableEq K] (hash : K → Nat) (c : ShardedLruCache K V) :
    CacheOp K V → ShardedLruCache K V
  | .put k v => { shards := modifyIdx (fun sh => sh.put k v) (getShard hash k) c.shards }
  | .get k => { shards := modifyIdx (fun sh => (sh.get k).1) (getShard hash k) c.shards }
  | .clear => { shards := c.shards.map (fun sh => { sh with entries := [] }) }

/-- A reachable state: new followed by a sequence of operations. -/
def ShardedLruCache.applyOps [DecidableEq K] (hash : K → Nat) (c : ShardedLruCache K V)
    (ops : List (CacheOp K V)) : ShardedLruCache K V :=
  ops.foldl (ShardedLruCache.applyOp hash) c

/-- Total number of items held across all shards. -/
def totalItems (c : ShardedLruCache K V) : Nat :=
  (c.shards.map (fun sh => sh.entries.length)).sum

/- ### Theme environment swap (src/http.rs get_jinja_env lines 30-165) -/

/-- The caching switch of the performance configuration. -/
structure PerfConfigM where
  enable_caching : Bool

/-- The slice of ServerState that get_jinja_env touches: the fingerprint and
environment pair behind the RwLock (environments modelled by identifiers)
and the page cache contents (entries modelled abstractly). -/
structure ThemeServerState where
  themeState : Nat × Nat
  pageCache : List (List String × Nat)
deriving DecidableEq

/-- src/http.rs get_jinja_env lines 60-164, sequentialized: the directory
fingerprint (currentHash) and the freshly built environment (newEnv) are
inputs because they come from filesystem reads.  Read-lock check, then the
double check under the write lock (the same test in this sequential model),
then the replacement of theme_state followed, when caching is enabled, by
clearing the page cache. -/
def get_jinja_env (cfg : PerfConfigM) (currentHash newEnv : Nat)
    (s : ThemeServerState) : ThemeServerState × Nat :=
  if s.themeState.1 = currentHash then (s, s.themeState.2)
  else if s.themeState.1 = currentHash then (s, s.themeState.2)
  else
    let s1 : ThemeServerState := { s with themeState := (currentHash, newEnv) }
    let s2 := if cfg.enable_caching then { s1 with pageCache := [] } else s1
    (s2, newEnv)

/- ### Claim C1: secure_join stays inside base -/

/-- Invariant carried through the secure_join loop: if the accumulator is
base extended by some suffix, any successful result is too. -/
theorem secureJoinAux_extends_base (base : List String) (comps : List PathComp) :
    ∀ res : List String, (∃ s, res = base ++ s) →
      ∀ l, secureJoinAux base res comps = some l → ∃ s, l = base ++ s := by
  induction comps with
  | nil =>
    intro res hres l hl
    simp only [secureJoinAux] at hl
    cases hl
    exact hres
  | cons c rest ih =>
    intro res hres l hl
    cases c with
    | normal nm =>
      obtain ⟨s, hs⟩ := hres
      exact ih (res ++ [nm]) ⟨s ++ [nm], by rw [hs, List.append_assoc]⟩ l hl
    | parentDir =>
      simp only [secureJoinAux] at hl
      by_cases hne : res = base
      · rw [if_neg (by simp [hne])] at hl
        cases hl
      · rw [if_pos hne] at hl
        obtain ⟨s, hs⟩ := hres
        have hsne : s ≠ [] := by
          intro h0
          apply hne
          rw [hs, h0, List.append_nil]
        refine ih res.dropLast ⟨s.dropLast, ?_⟩ l hl
        rw [hs, List.dropLast_append_of_ne_nil base hsne]
    | rootDir => exact ih res hres l hl
    | curDir => exact ih res hres l hl
    | prefixDir => exact ih res hres l hl

/-- Claim C1: secure_join either rejects or returns base extended by a suffix of
appended components, so the result is never outside base; a parent-dir
component pops exactly one component when the accumulated result is not
base (equivalently, given the invariant, when it is strictly deeper than
base) and rejects the whole call at base; normal components are appended;
root, current-dir and prefix components are dropped; and the absolute input
/etc/foo lands at base/etc/foo. -/
theorem c1_secure_join_never_escapes :
    (∀ (base : List String) (user : List Char) (l : List String),
        secure_join base user = some l → ∃ s, l = base ++ s) ∧
    (∀ (base res : List String) (rest : List PathComp), res ≠ base →
        secureJoinAux base res (PathComp.parentDir :: rest) =
          secureJoinAux base res.dropLast rest) ∧
    (∀ (base : List String) (rest : List PathComp),
        secureJoinAux base base (PathComp.parentDir :: rest) = none) ∧
    (∀ (base res : List String) (c : String) (rest : List PathComp),
        secureJoinAux base res (PathComp.normal c :: rest) =
          secureJoinAux base (res ++ [c]) rest) ∧
    (∀ (base res : List String) (rest : List PathComp),
        secureJoinAux base res (PathComp.rootDir :: rest) = secureJoinAux base res rest ∧
        secureJoinAux base res (PathComp.curDir :: rest) = secureJoinAux base res rest ∧
        secureJoinAux base res (PathComp.prefixDir :: rest) = secureJoinAux base res rest) ∧
    (∀ base res : List String, (∃ s, res = base ++ s) →
        (res ≠ base ↔ base.length < res.length)) ∧
    (∀ base : List String, secure_join base "/etc/foo".data = some (base ++ ["etc", "foo"])) := by
  refine ⟨?_, ?_, ?_, ?_, ?_, ?_, ?_⟩
  · intro base user l hl
    exact secureJoinAux_extends_base base (parsePathComps user) base ⟨[], by simp⟩ l hl
  · intro base res rest hne
    simp only [secureJoinAux]
    rw [if_pos hne]
  · intro base rest
    simp only [secureJoinAux]
    rw [if_neg (by simp)]
  · intro base res c rest
    rfl
  · intro base res rest
    exact ⟨rfl, rfl, rfl⟩
  · intro base res hres
    obtain ⟨s, hs⟩ := hres
    subst hs
    constructor
    · intro hne
      rcases s with _ | ⟨a, t⟩
      · simp at hne
      · simp
    · intro hlt heq
      rw [heq] at hlt
      exact lt_irrefl _ hlt
  · intro base
    have hp : parsePathComps "/etc/foo".data =
        [PathComp.rootDir, PathComp.normal "etc", PathComp.normal "foo"] := by rfl
    show secureJoinAux base base (parsePathComps "/etc/foo".data) = some (base ++ ["etc", "foo"])
    rw [hp]
    simp only [secureJoinAux]
    rw [List.append_assoc]
    rfl

/-- Witness for C1 at concrete inputs. -/
theorem c1_secure_join_never_escapes_witness :
    (∃ s, ["a", "b"] = ["a"] ++ s) ∧
    (["a", "x"] ≠ ["a"] ↔ List.length ["a"] < List.length ["a", "x"]) :=
  ⟨c1_secure_join_never_escapes.1 ["a"] "b".data ["a", "b"] (by rfl),
   c1_secure_join_never_escapes.2.2.2.2.2.1 ["a"] ["a", "x"] ⟨["x"], rfl⟩⟩

/- ### Claim C2: the URL filter answers 403 before touching the filesystem -/

/-- When the URL filter fires, serve_path returns the 403 response whatever
the filesystem oracle says. -/
theorem servePath_of_filter (fs : Fs) (base : List String) (decoded : List Char)
    (headers : List (String × String))
    (h : urlFilterRejects (normalizeReqPath decoded) = true) :
    servePath fs base decoded headers = .error 403 "403 Forbidden" := by
  simp only [servePath]
  rw [if_pos h]

/-- Claim C2: for every request whose decoded, backslash-normalized, query-stripped
path contains two consecutive dots, contains slash-dot, or starts with a
dot, serve_path responds 403 Forbidden for every filesystem oracle (so
before any filesystem resolution); in particular /../etc/passwd gets 403. -/
theorem c2_url_filter_forbidden :
    (∀ (fs : Fs) (base : List String) (decoded : List Char)
        (headers : List (String × String)),
        (containsSeq (normalizeReqPath decoded) ['.', '.'] = true ∨
         containsSeq (normalizeReqPath decoded) ['/', '.'] = true ∨
         headIsDot (normalizeReqPath decoded) = true) →
        servePath fs base decoded headers = .error 403 "403 Forbidden") ∧
    (∀ (fs : Fs) (base : List String) (headers : List (String × String)),
        servePath fs base "/../etc/passwd".data headers = .error 403 "403 Forbidden") := by
  constructor
  · intro fs base decoded headers h
    apply servePath_of_filter
    unfold urlFilterRejects
    rcases h with h | h | h <;> simp [h]
  · intro fs base headers
    apply servePath_of_filter
    decide

/-- A filesystem oracle that fails every operation. -/
def fsNone : Fs :=
  { openMeta := fun _ => none, canon := fun _ => none, baseDirCanon := none }

/-- Witness for C2 at a concrete filesystem and request. -/
theorem c2_url_filter_forbidden_witness :
    servePath fsNone [] "/../etc/passwd".data [] = .error 403 "403 Forbidden" :=
  c2_url_filter_forbidden.1 fsNone [] "/../etc/passwd".data [] (Or.inl (by decide))

/- ### Claim C4: non-GET or body implies 405 and a closed connection -/

/-- Claim C4: any parsed request whose method is not GET, or which carries a
content-length header with a positive numeric value, or any
transfer-encoding header, is answered 405 Method Not Allowed with the
keep-alive result forced to false (the connection loop then breaks, closing
the connection); in particular POST / with Content-Length 3. -/
theorem c4_method_not_allowed :
    (∀ (fs : Fs) (base : List String) (ka : Bool) (req : ParsedReq),
        (req.method.getD "GET" ≠ "GET" ∨
         (∃ p ∈ req.headers, eqIgnoreAsciiCase p.1.data "content-length".data = true ∧
            ∃ k, parseU64 (trimChars p.2.data) = some k ∧ 0 < k) ∨
         (∃ p ∈ req.headers, eqIgnoreAsciiCase p.1.data "transfer-encoding".data = true)) →
        handleParsedRequest fs base ka req = (.error 405 "Method Not Allowed", false)) ∧
    (∀ (fs : Fs) (base : List String),
        handleParsedRequest fs base true
          { method := some "POST", path := some "/", version := some 1,
            headers := [("Content-Length", "3")] } =
          (.error 405 "Method Not Allowed", false)) := by
  constructor
  · intro fs base ka req h
    unfold handleParsedRequest
    rw [if_pos]
    rcases h with h | ⟨p, hp, hCL, k, hparse, hkpos⟩ | ⟨p, hp, hTE⟩
    · exact Or.inl h
    · refine Or.inr ?_
      unfold hasBody
      rw [List.any_eq_true]
      refine ⟨p, hp, ?_⟩
      rw [if_pos hCL, Bool.and_eq_true, Bool.not_eq_true', Bool.not_eq_true']
      constructor
      · rw [decide_eq_false_iff_not]
        intro heq
        rw [heq] at hparse
        have h0 : (some 0 : Option Nat) = some k := by
          rw [← hparse]
          rfl
        cases h0
        exact Nat.lt_irrefl 0 hkpos
      · cases htr : trimChars p.2.data with
        | nil =>
          rw [htr] at hparse
          cases hparse
        | cons a t => rfl
    · refine Or.inr ?_
      unfold hasBody
      rw [List.any_eq_true]
      refine ⟨p, hp, ?_⟩
      have hCL : eqIgnoreAsciiCase p.1.data "content-length".data = false := by
        cases hc : eqIgnoreAsciiCase p.1.data "content-length".data
        · rfl
        · exfalso
          unfold eqIgnoreAsciiCase at hc hTE
          rw [decide_eq_true_iff] at hc hTE
          rw [hc] at hTE
          exact absurd hTE (by decide)
      rw [if_neg (by rw [hCL]; exact Bool.false_ne_true)]
      exact hTE
  · intro fs base
    unfold handleParsedRequest
    rw [if_pos (Or.inl (by decide))]

/-- Witness for C4 at a concrete request and filesystem. -/
theorem c4_method_not_allowed_witness :
    handleParsedRequest fsNone [] true
      { method := some "POST", path := some "/", version := some 1,
        headers := [("Content-Length", "3")] } =
      (.error 405 "Method Not Allowed", false) :=
  c4_method_not_allowed.1 fsNone [] true _ (Or.inl (by decide))

/- ### Claim C5: thread pool admission control -/

/-- Claim C5: execute returns the Full error carrying the job exactly when pending
has reached queue_size (leaving the pool untouched); below the bound it
succeeds, increments pending by one, appends the job to the injector and
notifies the parker. -/
theorem c5_execute_admission :
    ∀ (p : ThreadPoolM) (job : Nat),
      ((p.execute job).2 = some job ↔ p.queue_size ≤ p.pending) ∧
      (p.queue_size ≤ p.pending → p.execute job = (p, some job)) ∧
      (p.pending < p.queue_size →
        (p.execute job).2 = none ∧
        (p.execute job).1.pending = p.pending + 1 ∧
        (p.execute job).1.injector = p.injector ++ [job] ∧
        (p.execute job).1.parkerTokens = notify_one p.maxTokens p.parkerTokens ∧
        (p.execute job).1.queue_size = p.queue_size) := by
  intro p job
  by_cases h : p.queue_size ≤ p.pending
  · simp [ThreadPoolM.execute, h]
  · have hlt : p.pending < p.queue_size := Nat.lt_of_not_le h
    simp [ThreadPoolM.execute, h, hlt]

/-- Witness for C5 at a concrete pool state. -/
theorem c5_execute_admission_witness :
    ((⟨4, [1], 0, 5, 4⟩ : ThreadPoolM).execute 99).1.pending = 4 + 1 :=
  ((c5_execute_admission ⟨4, [1], 0, 5, 4⟩ 99).2.2 (by decide)).2.1

/- ### Claim C6: replacing the theme environment clears the page cache -/

/-- Claim C6: if get_jinja_env changed theme_state (the environment was replaced by
a newly built one) and caching is enabled, the page cache is empty
immediately afterwards. -/
theorem c6_theme_swap_clears_page_cache :
    ∀ (cfg : PerfConfigM) (currentHash newEnv : Nat) (s : ThemeServerState),
      (get_jinja_env cfg currentHash newEnv s).1.themeState ≠ s.themeState →
      cfg.enable_caching = true →
      (get_jinja_env cfg currentHash newEnv s).1.pageCache = [] := by
  intro cfg currentHash newEnv s hswap hcache
  by_cases hh : s.themeState.1 = currentHash
  · exfalso
    apply hswap
    simp [get_jinja_env, hh]
  · simp [get_jinja_env, hh, hcache]

/-- Witness for C6 at a concrete state with a stale fingerprint. -/
theorem c6_theme_swap_clears_page_cache_witness :
    (get_jinja_env ⟨true⟩ 1 2 ⟨(0, 0), [(["p"], 5)]⟩).1.pageCache = [] :=
  c6_theme_swap_clears_page_cache ⟨true⟩ 1 2 ⟨(0, 0), [(["p"], 5)]⟩ (by decide) rfl

/- ### Claim C9: the keep-alive decision -/

/-- Claim C9: is_keep_alive returns true on an exact (ASCII-case-insensitive)
keep-alive Connection value, false on an exact close, otherwise tests the
lowercased value for the substring keep-alive, and with no Connection
header returns true exactly when the version is HTTP/1.1. -/
theorem c9_is_keep_alive_decision :
    ∀ req : ParsedReq,
      (connectionHeader req.headers = none →
        (is_keep_alive req = true ↔ req.version = some 1)) ∧
      (∀ nm v, connectionHeader req.headers = some (nm, v) →
        (eqIgnoreAsciiCase v.data "keep-alive".data = true → is_keep_alive req = true) ∧
        (eqIgnoreAsciiCase v.data "close".data = true → is_keep_alive req = false) ∧
        (eqIgnoreAsciiCase v.data "keep-alive".data = false →
         eqIgnoreAsciiCase v.data "close".data = false →
         is_keep_alive req =
           containsSeq (v.data.map asciiLowerChar) "keep-alive".data)) := by
  intro req
  constructor
  · intro hnone
    simp only [is_keep_alive, hnone]
    rw [decide_eq_true_iff]
    cases hv : req.version with
    | none => simp [Option.getD]
    | some n =>
      simp only [Option.getD_some, Option.some.injEq]
  · intro nm v hsome
    refine ⟨?_, ?_, ?_⟩
    · intro hka
      simp only [is_keep_alive, hsome]
      rw [if_pos hka]
    · intro hclose
      have hka : eqIgnoreAsciiCase v.data "keep-alive".data = false := by
        cases hk : eqIgnoreAsciiCase v.data "keep-alive".data
        · rfl
        · exfalso
          unfold eqIgnoreAsciiCase at hk hclose
          rw [decide_eq_true_iff] at hk hclose
          rw [hk] at hclose
          exact absurd hclose (by decide)
      simp only [is_keep_alive, hsome]
      rw [if_neg (by rw [hka]; exact Bool.false_ne_true), if_pos hclose]
    · intro hka hclose
      simp only [is_keep_alive, hsome]
      rw [if_neg (by rw [hka]; exact Bool.false_ne_true),
          if_neg (by rw [hclose]; exact Bool.false_ne_true)]

/-- Witness for C9: a Connection value that is neither exact keep-alive nor
exact close but contains keep-alive as a substring. -/
theorem c9_is_keep_alive_decision_witness :
    is_keep_alive
        { method := some "GET", path := some "/", version := some 0,
          headers := [("Connection", "x, keep-ALIVE")] } =
      containsSeq ("x, keep-ALIVE".data.map asciiLowerChar) "keep-alive".data :=
  ((c9_is_keep_alive_decision
      { method := some "GET", path := some "/", version := some 0,
        headers := [("Connection", "x, keep-ALIVE")] }).2
    "Connection" "x, keep-ALIVE" (by decide)).2.2 (by decide) (by decide)

/- ### Claim C7: shard capacity and the total item bound -/

theorem length_modifyIdx (f : α → α) : ∀ (n : Nat) (l : List α),
    (modifyIdx f n l).length = l.length := by
  intro n l
  induction l generalizing n with
  | nil => cases n <;> rfl
  | cons x xs ih =>
    cases n with
    | zero => rfl
    | succ m => simp [modifyIdx, ih m]

theorem mem_modifyIdx (f : α → α) : ∀ (n : Nat) (l : List α) (x : α),
    x ∈ modifyIdx f n l → x ∈ l ∨ ∃ y ∈ l, x = f y := by
  intro n l
  induction l generalizing n with
  | nil => intro x hx; cases n <;> cases hx
  | cons a t ih =>
    intro x hx
    cases n with
    | zero =>
      rcases List.mem_cons.mp hx with h | h
      · exact Or.inr ⟨a, List.mem_cons_self a t, h⟩
      · exact Or.inl (List.mem_cons_of_mem a h)
    | succ m =>
      rcases List.mem_cons.mp hx with h | h
      · exact Or.inl (h ▸ List.mem_cons_self a t)
      · rcases ih m x h with h' | ⟨y, hy, hxy⟩
        · exact Or.inl (List.mem_cons_of_mem a h')
        · exact Or.inr ⟨y, List.mem_cons_of_mem a hy, hxy⟩

theorem filter_length_lt_of_key [DecidableEq K] :
    ∀ (l : List (K × V)) (k : K), (∃ e ∈ l, e.1 = k) →
      (l.filter (fun x => decide (x.1 ≠ k))).length < l.length := by
  intro l k
  induction l with
  | nil => rintro ⟨e, he, _⟩; cases he
  | cons a t ih =>
    rintro ⟨e, he, hek⟩
    by_cases ha : a.1 = k
    · have : (List.filter (fun x => decide (x.1 ≠ k)) (a :: t)) =
          List.filter (fun x => decide (x.1 ≠ k)) t := by
        simp [List.filter, ha]
      rw [this]
      exact Nat.lt_succ_of_le (List.length_filter_le _ t)
    · have : (List.filter (fun x => decide (x.1 ≠ k)) (a :: t)) =
          a :: List.filter (fun x => decide (x.1 ≠ k)) t := by
        simp [List.filter, ha]
      rw [this]
      have het : e ∈ t := by
        rcases List.mem_cons.mp he with h | h
        · exact absurd (h ▸ hek) ha
        · exact h
      exact Nat.succ_lt_succ (ih ⟨e, het, hek⟩)

/-- Per-shard invariant: the configured capacity and a length bound. -/
def CacheInv (cap : Nat) (c : ShardedLruCache K V) : Prop :=
  c.shards.length = SHARDS ∧ ∀ sh ∈ c.shards, sh.cap = cap ∧ sh.entries.length ≤ cap

theorem cacheInv_new {K V : Type} (n : Nat) :
    CacheInv (max 1 (n / SHARDS)) (ShardedLruCache.new n : ShardedLruCache K V) := by
  constructor
  · exact List.length_replicate SHARDS _
  · intro sh hsh
    rcases List.mem_replicate.mp hsh with ⟨-, rfl⟩
    exact ⟨rfl, Nat.zero_le _⟩

theorem lruPut_preserves [DecidableEq K] (cap : Nat) (sh : LruCache K V) (k : K) (v : V)
    (h : sh.cap = cap ∧ sh.entries.length ≤ cap) :
    (sh.put k v).cap = cap ∧ (sh.put k v).entries.length ≤ cap := by
  refine ⟨h.1, ?_⟩
  calc (sh.put k v).entries.length ≤ sh.cap := by
        simp only [LruCache.put]
        rw [List.length_take]
        exact Nat.min_le_left _ _
    _ = cap := h.1

theorem lruGet_preserves [DecidableEq K] (cap : Nat) (sh : LruCache K V) (k : K)
    (h : sh.cap = cap ∧ sh.entries.length ≤ cap) :
    (sh.get k).1.cap = cap ∧ (sh.get k).1.entries.length ≤ cap := by
  unfold LruCache.get
  cases hf : sh.entries.find? (fun e => decide (e.1 = k)) with
  | none => exact h
  | some e =>
    refine ⟨h.1, ?_⟩
    have hmem : e ∈ sh.entries := List.mem_of_find?_eq_some hf
    have hkey : e.1 = k := by
      have := List.find?_some hf
      exact of_decide_eq_true this
    have hlt := filter_length_lt_of_key sh.entries k ⟨e, hmem, hkey⟩
    simp only [List.length_cons]
    calc (sh.entries.filter (fun x => decide (x.1 ≠ k))).length + 1
        ≤ sh.entries.length := hlt
      _ ≤ cap := h.2

theorem cacheInv_applyOp [DecidableEq K] (cap : Nat) (hash : K → Nat)
    (c : ShardedLruCache K V) (op : CacheOp K V) (h : CacheInv cap c) :
    CacheInv cap (c.applyOp hash op) := by
  obtain ⟨hlen, hsh⟩ := h
  cases op with
  | put k v =>
    refine ⟨by simpa [ShardedLruCache.applyOp, length_modifyIdx] using hlen, ?_⟩
    intro sh hmem
    rcases mem_modifyIdx _ _ _ sh hmem with h' | ⟨y, hy, rfl⟩
    · exact hsh sh h'
    · exact lruPut_preserves cap y k v (hsh y hy)
  | get k =>
    refine ⟨by simpa [ShardedLruCache.applyOp, length_modifyIdx] using hlen, ?_⟩
    intro sh hmem
    rcases mem_modifyIdx _ _ _ sh hmem with h' | ⟨y, hy, rfl⟩
    · exact hsh sh h'
    · exact lruGet_preserves cap y k (hsh y hy)
  | clear =>
    refine ⟨by simpa [ShardedLruCache.applyOp] using hlen, ?_⟩
    intro sh hmem
    simp only [ShardedLruCache.applyOp, List.mem_map] at hmem
    rcases hmem with ⟨y, hy, rfl⟩
    exact ⟨(hsh y hy).1, Nat.zero_le _⟩

theorem cacheInv_applyOps [DecidableEq K] (cap : Nat) (hash : K → Nat)
    (ops : List (CacheOp K V)) :
    ∀ (c : ShardedLruCache K V), CacheInv cap c → CacheInv cap (c.applyOps hash ops) := by
  induction ops with
  | nil => intro c h; exact h
  | cons op rest ih =>
    intro c h
    exact ih (c.applyOp hash op) (cacheInv_applyOp cap hash c op h)

theorem sum_length_le (cap : Nat) :
    ∀ l : List (LruCache K V), (∀ sh ∈ l, sh.entries.length ≤ cap) →
      (l.map (fun sh => sh.entries.length)).sum ≤ l.length * cap := by
  intro l
  induction l with
  | nil => intro _; simp
  | cons a t ih =>
    intro h
    simp only [List.map_cons, List.sum_cons, List.length_cons, Nat.succ_mul]
    have ha := h a (List.mem_cons_self a t)
    have ht := ih (fun sh hsh => h sh (List.mem_cons_of_mem a hsh))
    omega

/-- Claim C7 counterexample to the claimed bound: with max_cache_items = 8 every
shard still has capacity max(1, 8/16) = 1, and 16 puts of keys landing in
16 distinct shards leave 16 items in the cache, exceeding 8. -/
theorem c7_counterexample_total_exceeds_max :
    8 < totalItems (ShardedLruCache.applyOps (fun k => k)
        (ShardedLruCache.new 8 : ShardedLruCache Nat Nat)
        ((List.range 16).map (fun k => CacheOp.put k 0))) := by decide

/-- Claim C7 amended: every shard of a freshly built cache has capacity
max(1, max_cache_items / SHARDS) with SHARDS = 16, and across any sequence
of operations the total item count never exceeds
SHARDS * max(1, max_cache_items / SHARDS); when max_cache_items is at
least SHARDS that bound is at most max_cache_items (for smaller values the
total can exceed max_cache_items, up to SHARDS). -/
theorem c7_shard_capacity_and_total_bound :
    ∀ (n : Nat) (hash : Nat → Nat) (ops : List (CacheOp Nat Nat)),
      (∀ sh ∈ (ShardedLruCache.new n : ShardedLruCache Nat Nat).shards,
          sh.cap = max 1 (n / SHARDS)) ∧
      totalItems (ShardedLruCache.applyOps hash
          (ShardedLruCache.new n : ShardedLruCache Nat Nat) ops) ≤
        SHARDS * max 1 (n / SHARDS) ∧
      (SHARDS ≤ n →
        totalItems (ShardedLruCache.applyOps hash
            (ShardedLruCache.new n : ShardedLruCache Nat Nat) ops) ≤ n) := by
  intro n hash ops
  have hinv := cacheInv_applyOps (max 1 (n / SHARDS)) hash ops
      (ShardedLruCache.new n : ShardedLruCache Nat Nat) (cacheInv_new n)
  obtain ⟨hlen, hsh⟩ := hinv
  have htot : totalItems (ShardedLruCache.applyOps hash
      (ShardedLruCache.new n : ShardedLruCache Nat Nat) ops) ≤
      SHARDS * max 1 (n / SHARDS) := by
    unfold totalItems
    calc ((ShardedLruCache.applyOps hash _ ops).shards.map
            (fun sh => sh.entries.length)).sum
        ≤ (ShardedLruCache.applyOps hash
            (ShardedLruCache.new n : ShardedLruCache Nat Nat) ops).shards.length *
            max 1 (n / SHARDS) :=
          sum_length_le _ _ (fun sh h => (hsh sh h).2)
      _ = SHARDS * max 1 (n / SHARDS) := by rw [hlen]
  refine ⟨?_, htot, ?_⟩
  · intro sh hmem
    exact ((cacheInv_new n).2 sh hmem).1
  · intro hn
    have h1 : max 1 (n / SHARDS) = n / SHARDS := by
      have : 1 ≤ n / SHARDS := (Nat.one_le_div_iff (by decide)).mpr hn
      omega
    calc totalItems (ShardedLruCache.applyOps hash
          (ShardedLruCache.new n : ShardedLruCache Nat Nat) ops)
        ≤ SHARDS * max 1 (n / SHARDS) := htot
      _ = SHARDS * (n / SHARDS) := by rw [h1]
      _ ≤ n := by
          rw [Nat.mul_comm]
          exact Nat.div_mul_le_self n SHARDS

/-- Witness for C7 at a concrete capacity and operation sequence. -/
theorem c7_shard_capacity_and_total_bound_witness :
    totalItems (ShardedLruCache.applyOps (fun k => k)
        (ShardedLruCache.new 32 : ShardedLruCache Nat Nat)
        ((List.range 4).map (fun k => CacheOp.put k 0))) ≤ 32 :=
  (c7_shard_capacity_and_total_bound 32 (fun k => k)
      ((List.range 4).map (fun k => CacheOp.put k 0))).2.2 (by decide)

/- ### Helper lemmas for the byte-range claims -/

theorem digit_char_props (c : Char) (h : c.isDigit = true) :
    c.isWhitespace = false ∧ c ≠ '-' ∧ c ≠ ',' ∧ c ≠ '+' := by
  refine ⟨?_, ?_, ?_, ?_⟩
  · cases hw : c.isWhitespace
    · rfl
    · exfalso
      simp only [Char.isWhitespace, Bool.or_eq_true, decide_eq_true_eq] at hw
      rcases hw with ((hw | hw) | hw) | hw <;> subst hw <;> exact absurd h (by decide)
  · intro hc; rw [hc] at h; exact absurd h (by decide)
  · intro hc; rw [hc] at h; exact absurd h (by decide)
  · intro hc; rw [hc] at h; exact absurd h (by decide)

theorem not_mem_of_digits (l : List Char) (hall : l.all Char.isDigit = true)
    (c : Char) (hc : c.isDigit = false) : c ∉ l := by
  intro hmem
  have := List.all_eq_true.mp hall c hmem
  rw [hc] at this
  cases this

theorem trim_of_digits (l : List Char) (hall : l.all Char.isDigit = true) :
    trimChars l = l := by
  have hws : ∀ c ∈ l, c.isWhitespace = false := fun c hc =>
    (digit_char_props c (List.all_eq_true.mp hall c hc)).1
  unfold trimChars
  have h1 : l.dropWhile Char.isWhitespace = l := by
    cases l with
    | nil => rfl
    | cons a t =>
      rw [List.dropWhile_cons, if_neg]
      rw [hws a (List.mem_cons_self a t)]
      exact Bool.false_ne_true
  rw [h1]
  have h2 : l.reverse.dropWhile Char.isWhitespace = l.reverse := by
    cases hr : l.reverse with
    | nil => rfl
    | cons a t =>
      have ha : a ∈ l := by
        rw [← List.mem_reverse, hr]
        exact List.mem_cons_self a t
      rw [List.dropWhile_cons, if_neg]
      rw [hws a ha]
      exact Bool.false_ne_true
  rw [h2, List.reverse_reverse]

theorem parseU64_of_digits (l : List Char) (hne : l ≠ [])
    (hall : l.all Char.isDigit = true) (hlt : digitsVal l < 18446744073709551616) :
    parseU64 l = some (digitsVal l) := by
  unfold parseU64
  have hhead : ¬ l.headD ' ' = '+' := by
    cases l with
    | nil => exact absurd rfl hne
    | cons a t =>
      have := (digit_char_props a (List.all_eq_true.mp hall a (List.mem_cons_self a t))).2.2.2
      simpa using this
  rw [if_neg hhead]
  have hempty : l.isEmpty = false := by
    cases l with
    | nil => exact absurd rfl hne
    | cons a t => rfl
  show (if (!l.isEmpty && l.all Char.isDigit) = true then
      if digitsVal l < 18446744073709551616 then some (digitsVal l) else none
    else none) = some (digitsVal l)
  rw [hempty, hall]
  simp [hlt]

theorem containsChar_of_not_mem (c : Char) : ∀ l : List Char, c ∉ l →
    containsChar c l = false := by
  intro l
  induction l with
  | nil => intro _; rfl
  | cons x xs ih =>
    intro h
    have hx : ¬ x = c := fun he => h (he ▸ List.mem_cons_self x xs)
    simp only [containsChar, Bool.or_eq_false_iff]
    exact ⟨by simpa using hx, ih (fun hm => h (List.mem_cons_of_mem x hm))⟩

theorem splitChar_of_not_mem (c : Char) : ∀ l : List Char, c ∉ l →
    splitChar c l = [l] := by
  intro l
  induction l with
  | nil => intro _; rfl
  | cons x xs ih =>
    intro h
    have hx : ¬ x = c := fun he => h (he ▸ List.mem_cons_self x xs)
    rw [splitChar]
    simp only [if_neg hx, ih (fun hm => h (List.mem_cons_of_mem x hm))]

theorem splitChar_append (c : Char) (bs : List Char) : ∀ as : List Char, c ∉ as →
    splitChar c (as ++ c :: bs) = as :: splitChar c bs := by
  intro as
  induction as with
  | nil =>
    intro _
    rw [List.nil_append, splitChar]
    simp
  | cons a t ih =>
    intro h
    have ha : ¬ a = c := fun he => h (he ▸ List.mem_cons_self a t)
    rw [List.cons_append, splitChar]
    simp only [if_neg ha, ih (fun hm => h (List.mem_cons_of_mem a hm))]

theorem findRange_single (v : String) : findRange [("Range", v)] = some v := by
  simp only [findRange]
  rw [if_pos (by decide)]

theorem isEmpty_false_of_ne (l : List Char) (h : l ≠ []) : l.isEmpty = false := by
  cases l with
  | nil => exact absurd rfl h
  | cons a t => rfl

theorem rangeTriple_suffix (len : Nat) (nstr : List Char) (hne : nstr ≠ [])
    (hall : nstr.all Char.isDigit = true) (hlt : digitsVal nstr < 18446744073709551616)
    (hpos : 0 < digitsVal nstr) :
    rangeTriple len [("Range", String.mk ("bytes=-".data ++ nstr))] =
      (len - digitsVal nstr, len - 1, true) := by
  have hdash : '-' ∉ nstr := not_mem_of_digits nstr hall '-' (by decide)
  have hcomma : ',' ∉ nstr := not_mem_of_digits nstr hall ',' (by decide)
  unfold rangeTriple
  rw [findRange_single]
  dsimp only
  have h1 : stripBytesEq ("bytes=-".data ++ nstr) = some ('-' :: nstr) := rfl
  rw [h1]
  dsimp only
  have h2 : containsChar ',' ('-' :: nstr) = false := by
    simp [containsChar, containsChar_of_not_mem ',' nstr hcomma]
  rw [h2, if_neg Bool.false_ne_true]
  have h3 : splitChar '-' ('-' :: nstr) = [[], nstr] := by
    rw [splitChar, if_pos rfl, splitChar_of_not_mem '-' nstr hdash]
  rw [h3]
  dsimp only
  simp [trim_of_digits nstr hall, parseU64_of_digits nstr hne hall hlt,
    isEmpty_false_of_ne nstr hne, hpos, show trimChars [] = [] from rfl]

theorem rangeTriple_open (len : Nat) (astr : List Char) (hne : astr ≠ [])
    (hall : astr.all Char.isDigit = true) (hlt : digitsVal astr < 18446744073709551616) :
    rangeTriple len [("Range", String.mk ("bytes=".data ++ astr ++ ['-']))] =
      (digitsVal astr, len - 1, true) := by
  have hdash : '-' ∉ astr := not_mem_of_digits astr hall '-' (by decide)
  have hcomma : ',' ∉ astr := not_mem_of_digits astr hall ',' (by decide)
  unfold rangeTriple
  rw [findRange_single]
  dsimp only
  have h1 : stripBytesEq ("bytes=".data ++ astr ++ ['-']) = some (astr ++ ['-']) := rfl
  rw [h1]
  dsimp only
  have h2 : containsChar ',' (astr ++ ['-']) = false := by
    apply containsChar_of_not_mem
    intro hm
    rcases List.mem_append.mp hm with hm | hm
    · exact hcomma hm
    · simp at hm
  rw [h2, if_neg Bool.false_ne_true]
  have h3 : splitChar '-' (astr ++ ['-']) = [astr, []] := by
    have := splitChar_append '-' [] astr hdash
    simpa [splitChar] using this
  rw [h3]
  dsimp only
  simp [trim_of_digits astr hall, parseU64_of_digits astr hne hall hlt,
    isEmpty_false_of_ne astr hne, show trimChars [] = [] from rfl]

theorem rangeTriple_two (len : Nat) (astr bstr : List Char)
    (hnea : astr ≠ []) (halla : astr.all Char.isDigit = true)
    (hlta : digitsVal astr < 18446744073709551616)
    (hneb : bstr ≠ []) (hallb : bstr.all Char.isDigit = true)
    (hltb : digitsVal bstr < 18446744073709551616) :
    rangeTriple len [("Range", String.mk ("bytes=".data ++ astr ++ '-' :: bstr))] =
      (digitsVal astr, min (digitsVal bstr) (len - 1), true) := by
  have hdasha : '-' ∉ astr := not_mem_of_digits astr halla '-' (by decide)
  have hdashb : '-' ∉ bstr := not_mem_of_digits bstr hallb '-' (by decide)
  have hcommaa : ',' ∉ astr := not_mem_of_digits astr halla ',' (by decide)
  have hcommab : ',' ∉ bstr := not_mem_of_digits bstr hallb ',' (by decide)
  unfold rangeTriple
  rw [findRange_single]
  dsimp only
  have h1 : stripBytesEq ("bytes=".data ++ astr ++ '-' :: bstr) =
      some (astr ++ '-' :: bstr) := rfl
  rw [h1]
  dsimp only
  have h2 : containsChar ',' (astr ++ '-' :: bstr) = false := by
    apply containsChar_of_not_mem
    intro hm
    rcases List.mem_append.mp hm with hm | hm
    · exact hcommaa hm
    · rcases List.mem_cons.mp hm with hm | hm
      · cases hm
      · exact hcommab hm
  rw [h2, if_neg Bool.false_ne_true]
  have h3 : splitChar '-' (astr ++ '-' :: bstr) = [astr, bstr] := by
    rw [splitChar_append '-' bstr astr hdasha, splitChar_of_not_mem '-' bstr hdashb]
  rw [h3]
  dsimp only
  simp [trim_of_digits astr halla, trim_of_digits bstr hallb,
    parseU64_of_digits astr hnea halla hlta, parseU64_of_digits bstr hneb hallb hltb,
    isEmpty_false_of_ne astr hnea, isEmpty_false_of_ne bstr hneb]

theorem staticRangeDecision (len : Nat) (hdrs : List (String × String)) (rs re : Nat)
    (ht : rangeTriple len hdrs = (rs, re, true)) :
    ((re < rs ∨ len ≤ rs) → staticFileResponse hdrs len = .rangeNotSatisfiable len) ∧
    (rs ≤ re → rs < len →
      staticFileResponse hdrs len = .fileData 206 (re - rs + 1) (some (rs, re, len))) := by
  constructor
  · intro h
    unfold staticFileResponse
    rw [ht]
    dsimp only
    rw [if_pos ⟨rfl, h⟩]
  · intro h1 h2
    unfold staticFileResponse
    rw [ht]
    dsimp only
    rw [if_neg (by
      rintro ⟨-, h | h⟩
      · omega
      · omega)]
    rw [if_neg (by omega : ¬ len = 0)]
    simp

/- ### Claim C3: single-range semantics for static files -/

/-- Claim C3: for a static file of length len and a single Range header, the
suffix form bytes=-N with 0 < N ≤ len selects start len-N and end len-1;
the open form bytes=a- selects start a and end len-1; writing (rs, re) for
the resolved start and end of any partial range, the response is 416
carrying Content-Range bytes star-slash-len when re < rs or len ≤ rs, and
otherwise 206 with Content-Range rs-re/len and Content-Length re-rs+1; in
particular bytes=-5 on a 100-byte file gives 206, Content-Range 95-99/100,
Content-Length 5. -/
theorem c3_single_range_semantics :
    (∀ (len : Nat) (hdrs : List (String × String)) (rs re : Nat),
        rangeTriple len hdrs = (rs, re, true) →
        ((re < rs ∨ len ≤ rs) →
          staticFileResponse hdrs len = .rangeNotSatisfiable len) ∧
        (rs ≤ re → rs < len →
          staticFileResponse hdrs len = .fileData 206 (re - rs + 1) (some (rs, re, len)))) ∧
    (∀ (len : Nat) (nstr : List Char), nstr ≠ [] → nstr.all Char.isDigit = true →
        digitsVal nstr < 18446744073709551616 → 0 < digitsVal nstr →
        digitsVal nstr ≤ len →
        rangeTriple len [("Range", String.mk ("bytes=-".data ++ nstr))] =
          (len - digitsVal nstr, len - 1, true)) ∧
    (∀ (len : Nat) (astr : List Char), astr ≠ [] → astr.all Char.isDigit = true →
        digitsVal astr < 18446744073709551616 →
        rangeTriple len [("Range", String.mk ("bytes=".data ++ astr ++ ['-']))] =
          (digitsVal astr, len - 1, true)) ∧
    (∀ (len : Nat) (astr bstr : List Char),
        astr ≠ [] → astr.all Char.isDigit = true →
        digitsVal astr < 18446744073709551616 →
        bstr ≠ [] → bstr.all Char.isDigit = true →
        digitsVal bstr < 18446744073709551616 →
        rangeTriple len [("Range", String.mk ("bytes=".data ++ astr ++ '-' :: bstr))] =
          (digitsVal astr, min (digitsVal bstr) (len - 1), true)) ∧
    staticFileResponse [("Range", "bytes=-5")] 100 =
      .fileData 206 5 (some (95, 99, 100)) := by
  refine ⟨?_, ?_, ?_, ?_, ?_⟩
  · intro len hdrs rs re ht
    exact staticRangeDecision len hdrs rs re ht
  · intro len nstr hne hall hlt hpos _
    exact rangeTriple_suffix len nstr hne hall hlt hpos
  · intro len astr hne hall hlt
    exact rangeTriple_open len astr hne hall hlt
  · intro len astr bstr hnea halla hlta hneb hallb hltb
    exact rangeTriple_two len astr bstr hnea halla hlta hneb hallb hltb
  · decide

/-- Witness for C3: the suffix form and the 416 rule at concrete inputs. -/
theorem c3_single_range_semantics_witness :
    rangeTriple 100 [("Range", String.mk ("bytes=-".data ++ ['5']))] = (95, 99, true) ∧
    staticFileResponse [("Range", "bytes=200-300")] 100 = .rangeNotSatisfiable 100 :=
  ⟨c3_single_range_semantics.2.1 100 ['5'] (by decide) (by decide) (by decide)
      (by decide) (by decide),
   (c3_single_range_semantics.1 100 [("Range", "bytes=200-300")] 200 99
      (by decide)).1 (by decide)⟩

/- ### Claim C10: over-long ranges are clamped, not rejected -/

/-- Claim C10: on a nonempty file, a range whose start is satisfiable but whose
upper demand exceeds the file is not answered 416: bytes=a-b with a < len
and len ≤ b is clamped to end len-1 and served as 206 with Content-Range
a-(len-1)/len, and bytes=-N with len < N clamps the start to 0 and serves
the whole file as 206 with Content-Range 0-(len-1)/len. -/
theorem c10_range_clamped_to_eof :
    (∀ (len : Nat) (astr bstr : List Char),
        0 < len →
        astr ≠ [] → astr.all Char.isDigit = true →
        digitsVal astr < 18446744073709551616 →
        bstr ≠ [] → bstr.all Char.isDigit = true →
        digitsVal bstr < 18446744073709551616 →
        digitsVal astr < len → len ≤ digitsVal bstr →
        staticFileResponse [("Range", String.mk ("bytes=".data ++ astr ++ '-' :: bstr))] len =
          .fileData 206 (len - digitsVal astr) (some (digitsVal astr, len - 1, len))) ∧
    (∀ (len : Nat) (nstr : List Char),
        0 < len →
        nstr ≠ [] → nstr.all Char.isDigit = true →
        digitsVal nstr < 18446744073709551616 →
        len < digitsVal nstr →
        staticFileResponse [("Range", String.mk ("bytes=-".data ++ nstr))] len =
          .fileData 206 len (some (0, len - 1, len))) := by
  constructor
  · intro len astr bstr hlen hnea halla hlta hneb hallb hltb hstart hover
    have ht := rangeTriple_two len astr bstr hnea halla hlta hneb hallb hltb
    have hmin : min (digitsVal bstr) (len - 1) = len - 1 := by omega
    rw [hmin] at ht
    have := (staticRangeDecision len _ (digitsVal astr) (len - 1) ht).2
      (by omega) hstart
    rw [this]
    have : len - 1 - digitsVal astr + 1 = len - digitsVal astr := by omega
    rw [this]
  · intro len nstr hlen hne hall hlt hover
    have ht := rangeTriple_suffix len nstr hne hall hlt (by omega)
    have hzero : len - digitsVal nstr = 0 := by omega
    rw [hzero] at ht
    have := (staticRangeDecision len _ 0 (len - 1) ht).2
      (by omega) (by omega)
    rw [this]
    have : len - 1 - 0 + 1 = len := by omega
    rw [this]

/-- Witness for C10: bytes=0-200 on a 100-byte file is clamped to 0-99. -/
theorem c10_range_clamped_to_eof_witness :
    staticFileResponse
        [("Range", String.mk ("bytes=".data ++ ['0'] ++ '-' :: ['2', '0', '0']))] 100 =
      .fileData 206 100 (some (0, 99, 100)) :=
  c10_range_clamped_to_eof.1 100 ['0'] ['2', '0', '0'] (by decide) (by decide)
    (by decide) (by decide) (by decide) (by decide) (by decide) (by decide) (by decide)

/- ### Claim C8: markdown files are refused on the static branch -/

/-- Claim C8: whenever resolution falls through to the static branch (the filter
passed, the markdown branch missed, the redirect branch missed) and the
canonicalized static target has the md extension (ASCII-case-insensitively),
serve_path answers 403 Forbidden and never reaches the file-serving code. -/
theorem c8_static_md_forbidden :
    ∀ (fs : Fs) (base : List String) (decoded : List Char)
      (headers : List (String × String)) (sp c : List String),
      urlFilterRejects (normalizeReqPath decoded) = false →
      mdHit fs base (mdTargetOf (normalizeReqPath decoded)) = none →
      (!isDirReq (normalizeReqPath decoded) &&
        dirHit fs base (dropLeadingSlashes (normalizeReqPath decoded))) = false →
      secure_join base (staticTargetOf (normalizeReqPath decoded)) = some sp →
      fs.canon sp = some c →
      pathStartsWith c (fs.baseDirCanon.getD base) = true →
      mdExt c = true →
      servePath fs base decoded headers = .error 403 "403 Forbidden" := by
  intro fs base decoded headers sp c hf hmd hdir hsj hcanon hstart hext
  unfold servePath
  dsimp only
  rw [hf, if_neg Bool.false_ne_true, hmd]
  dsimp only
  rw [hdir, if_neg Bool.false_ne_true]
  unfold staticBranch
  rw [hsj]
  dsimp only
  rw [hcanon]
  dsimp only
  rw [hstart, Bool.not_true, if_neg Bool.false_ne_true, hext, if_pos rfl]

/-- A filesystem oracle whose canonicalization lands every path on a
markdown file (for instance through a symlink). -/
def fsC8 : Fs :=
  { openMeta := fun _ => none, canon := fun _ => some ["evil.md"], baseDirCanon := some [] }

/-- Witness for C8 at a concrete request resolving to a markdown file. -/
theorem c8_static_md_forbidden_witness :
    servePath fsC8 [] "/foo".data [] = .error 403 "403 Forbidden" :=
  c8_static_md_forbidden fsC8 [] "/foo".data [] ["foo"] ["evil.md"]
    (by decide) rfl rfl rfl rfl rfl (by decide)
